import Mathlib

/-!
# Double encryption with 24-bit keys and its meet-in-the-middle key recovery

A shallow embedding of `keycrack.go` (and of the cipher helpers that
`generator.go` repeats verbatim).  Values of Go type `uint32` are natural
numbers kept below `2 ^ 32` by an explicit reduction after every operation
that can wrap; a `[8]byte` array is a record of eight bytes.
-/

namespace KeyCrack

/-! ## Data model -/

/-- The Go array type `[8]byte`: eight bytes, index 0 first. -/
structure Block where
  b0 : Fin 256
  b1 : Fin 256
  b2 : Fin 256
  b3 : Fin 256
  b4 : Fin 256
  b5 : Fin 256
  b6 : Fin 256
  b7 : Fin 256
deriving DecidableEq, Repr

/-- A plaintext and ciphertext pair from stdin (`type textpair struct`). -/
structure textpair where
  plaintext : Block
  ciphertext : Block
deriving DecidableEq, Repr

/-- The two keys, each held in a `uint32` (`type keypair struct`). -/
structure keypair where
  key1 : Nat
  key2 : Nat
deriving DecidableEq, Repr

/-! ## 32-bit machine arithmetic -/

/-- Wrapping `uint32` addition. -/
def add32 (a b : Nat) : Nat := (a + b) % 2 ^ 32

/-- Wrapping `uint32` subtraction. -/
def sub32 (a b : Nat) : Nat := (a + 2 ^ 32 - b % 2 ^ 32) % 2 ^ 32

/-- The `uint32` left shift: bits moved past position 31 are dropped. -/
def shl32 (a n : Nat) : Nat := (a <<< n) % 2 ^ 32

/-- The conversion `byte(v)`: the low eight bits. -/
def byteOf (v : Nat) : Fin 256 := ⟨v % 256, Nat.mod_lt _ (by decide)⟩

/-- The library call `binary.BigEndian.Uint32` on four consecutive bytes. -/
def beUint32 (a b c d : Fin 256) : Nat :=
  a.val * 2 ^ 24 + b.val * 2 ^ 16 + c.val * 2 ^ 8 + d.val

/-- Two calls of `binary.BigEndian.PutUint32`, filling bytes 0..3 from `v0`
and bytes 4..7 from `v1`. -/
def putBlock (v0 v1 : Nat) : Block :=
  { b0 := byteOf (v0 >>> 24), b1 := byteOf (v0 >>> 16), b2 := byteOf (v0 >>> 8), b3 := byteOf v0,
    b4 := byteOf (v1 >>> 24), b5 := byteOf (v1 >>> 16), b6 := byteOf (v1 >>> 8), b7 := byteOf v1 }

/-! ## The cipher -/

/-- The constant `rounds`. -/
def rounds : Nat := 64

/-- The constant `delta`. -/
def delta : Nat := 0x9E3779B9

/-- The local variables `v0`, `v1`, `sum` of the cipher loops. -/
structure Regs where
  v0 : Nat
  v1 : Nat
  sum : Nat
deriving DecidableEq, Repr

/-- The subexpression `((v << 4) ^ (v >> 5)) + v`. -/
def mix (v : Nat) : Nat := add32 (shl32 v 4 ^^^ (v >>> 5)) v

/-- One pass through the body of the loop of `encrypt`. -/
def encryptStep (key : List Nat) (r : Regs) : Regs :=
  let v0 := add32 r.v0 (mix r.v1 ^^^ add32 r.sum (key.getD (r.sum &&& 3) 0))
  let sum := add32 r.sum delta
  let v1 := add32 r.v1 (mix v0 ^^^ add32 sum (key.getD ((sum >>> 11) &&& 3) 0))
  { v0 := v0, v1 := v1, sum := sum }

/-- The loop `for i := 0; i < rounds; i++` of `encrypt`, by the number of
iterations still to run. -/
def encryptLoop (key : List Nat) : Nat → Regs → Regs
  | 0, r => r
  | n + 1, r => encryptLoop key n (encryptStep key r)

/-- The function `encrypt`. -/
def encrypt (k : Nat) (m : Block) : Block :=
  let k := k &&& ((1 <<< 24) - 1)
  let r := encryptLoop [k, k, k, k] rounds
    { v0 := beUint32 m.b0 m.b1 m.b2 m.b3, v1 := beUint32 m.b4 m.b5 m.b6 m.b7, sum := 0 }
  putBlock r.v0 r.v1

/-- One pass through the body of the loop of `decrypt`. -/
def decryptStep (key : List Nat) (r : Regs) : Regs :=
  let v1 := sub32 r.v1 (mix r.v0 ^^^ add32 r.sum (key.getD ((r.sum >>> 11) &&& 3) 0))
  let sum := sub32 r.sum delta
  let v0 := sub32 r.v0 (mix v1 ^^^ add32 sum (key.getD (sum &&& 3) 0))
  { v0 := v0, v1 := v1, sum := sum }

/-- The loop `for i := 0; i < rounds; i++` of `decrypt`, by the number of
iterations still to run. -/
def decryptLoop (key : List Nat) : Nat → Regs → Regs
  | 0, r => r
  | n + 1, r => decryptLoop key n (decryptStep key r)

/-- The function `decrypt`; `math.MaxUint32` is `2 ^ 32 - 1`. -/
def decrypt (k : Nat) (c : Block) : Block :=
  let k := k &&& ((1 <<< 24) - 1)
  let r := decryptLoop [k, k, k, k] rounds
    { v0 := beUint32 c.b0 c.b1 c.b2 c.b3, v1 := beUint32 c.b4 c.b5 c.b6 c.b7,
      sum := (delta * rounds) &&& (2 ^ 32 - 1) }
  putBlock r.v0 r.v1

/-- The function `doubleEncrypt`. -/
def doubleEncrypt (k1 k2 : Nat) (m : Block) : Block :=
  encrypt k2 (encrypt k1 m)

/-- The function `doubleDecrypt`. -/
def doubleDecrypt (k1 k2 : Nat) (c : Block) : Block :=
  decrypt k1 (decrypt k2 c)

/-- The block of eight zero bytes. -/
def zeroBlock : Block := ⟨0, 0, 0, 0, 0, 0, 0, 0⟩

/-! ## The key-recovery search -/

/-- The digits used by `hex.EncodeToString` (`const hextable`). -/
def hextable : String := "0123456789abcdef"

/-- One digit of the table, `hextable[n]`. -/
def hexDigit (n : Nat) : Char := hextable.data.getD n '0'

/-- The characters `hex.EncodeToString` produces: two digits per byte, the
high nibble first. -/
def hexChars : List (Fin 256) → List Char
  | [] => []
  | b :: bs => hexDigit (b.val >>> 4) :: hexDigit (b.val &&& 0x0f) :: hexChars bs

/-- The library call `hex.EncodeToString`. -/
def hexEncodeToString (bs : List (Fin 256)) : String := String.mk (hexChars bs)

/-- The slice `b[:]` of a block. -/
def Block.toList (b : Block) : List (Fin 256) :=
  [b.b0, b.b1, b.b2, b.b3, b.b4, b.b5, b.b6, b.b7]

/-- A Go `map[string]uint32`, as the list of its assignments, newest first. -/
structure GoMap where
  entries : List (String × Nat)
deriving Repr

/-- The call `make(map[string]uint32)`. -/
def GoMap.empty : GoMap := ⟨[]⟩

/-- The assignment `m[key] = value`. -/
def GoMap.insert (m : GoMap) (key : String) (value : Nat) : GoMap :=
  ⟨(key, value) :: m.entries⟩

/-- The two-result read `value, found := m[key]`: the newest assignment to
`key`, or `none` when there is none. -/
def GoMap.lookup (m : GoMap) (key : String) : Option Nat :=
  (m.entries.find? fun e => e.1 == key).map Prod.snd

/-- The run-time panics of the program. -/
inductive GoPanic where
  | indexOutOfRange
deriving DecidableEq, Repr

/-- The function `testDoubleEncryption`. -/
def testDoubleEncryption (key1 key2 : Nat) (plaintext ciphertext : Block) : Bool :=
  let testCiphertext := doubleEncrypt key1 key2 plaintext
  decide (testCiphertext = ciphertext)

/-- The first loop of `crack`,
`for keyGuess := uint32(0); keyGuess < (1 << 24); keyGuess++`, by the number
of iterations still to run and the current value of `keyGuess`: it records
`encrypt(keyGuess, texts[0].plaintext) -> keyGuess` in the map. -/
def forwardLoop (texts : List textpair) : Nat → Nat → GoMap → Except GoPanic GoMap
  | 0, _, cPrimeMap => .ok cPrimeMap
  | n + 1, keyGuess, cPrimeMap =>
    match texts[0]? with
    | none => .error .indexOutOfRange
    | some t0 =>
      let encryptedMid := encrypt keyGuess t0.plaintext
      forwardLoop texts n (add32 keyGuess 1)
        (cPrimeMap.insert (hexEncodeToString encryptedMid.toList) keyGuess)

/-- The second loop of `crack`, in the same form, followed by the final
`return keypair{key1: 0, key2: 0}`. -/
def backwardLoop (texts : List textpair) (cPrimeMap : GoMap) : Nat → Nat → Except GoPanic keypair
  | 0, _ => .ok { key1 := 0, key2 := 0 }
  | n + 1, keyGuess =>
    match texts[0]? with
    | none => .error .indexOutOfRange
    | some t0 =>
      let decryptedMid := decrypt keyGuess t0.ciphertext
      let decryptedMidHex := hexEncodeToString decryptedMid.toList
      match cPrimeMap.lookup decryptedMidHex with
      | some matchedKey =>
        if testDoubleEncryption matchedKey keyGuess t0.plaintext t0.ciphertext then
          .ok { key1 := matchedKey, key2 := keyGuess }
        else backwardLoop texts cPrimeMap n (add32 keyGuess 1)
      | none => backwardLoop texts cPrimeMap n (add32 keyGuess 1)

-- Both loops are run `1 << 24` times by `crack`: they are reasoned about through
-- their equations and are never unfolded during elaboration.
attribute [irreducible] forwardLoop backwardLoop

/-- The function `crack`: each loop runs `1 << 24` times unless it is left
early.  An index expression on an empty slice panics. -/
def crack (texts : List textpair) : Except GoPanic keypair :=
  match forwardLoop texts (1 <<< 24) 0 GoMap.empty with
  | .error p => .error p
  | .ok cPrimeMap => backwardLoop texts cPrimeMap (1 <<< 24) 0

/-- The text `printAnswer` writes to stdout: the indented JSON object with
bytes 1..3 of the big-endian encoding of each key in hex, and a newline. -/
def printAnswer (keys : keypair) : String :=
  let key1Bytes : List (Fin 256) :=
    [byteOf (keys.key1 >>> 24), byteOf (keys.key1 >>> 16), byteOf (keys.key1 >>> 8),
      byteOf keys.key1]
  let key2Bytes : List (Fin 256) :=
    [byteOf (keys.key2 >>> 24), byteOf (keys.key2 >>> 16), byteOf (keys.key2 >>> 8),
      byteOf keys.key2]
  "\x7b\n    \"key_1\": \"" ++ hexEncodeToString (key1Bytes.drop 1) ++
    "\",\n    \"key_2\": \"" ++ hexEncodeToString (key2Bytes.drop 1) ++ "\"\n\x7d\n"

/-- How a run of the program ends. -/
inductive Outcome where
  | exited (status : Nat) (stderr : String)
  | printed (stdout : String)
  | panicked (p : GoPanic)
deriving DecidableEq, Repr

/-- The function `main` from the point where `parse` has returned `texts`. -/
def mainAfterParse (texts : List textpair) : Outcome :=
  if texts.length = 0 then
    .exited 1 "need at least one plaintext/ciphertext pair\n"
  else
    match crack texts with
    | .error p => .panicked p
    | .ok answer => .printed (printAnswer answer)

/-! ## Reading the corpus (`parse` of `keycrack.go`) -/

/-- The predicate `unicode.IsSpace`, by code point. -/
def isSpace (c : Char) : Bool :=
  let n := c.toNat
  (9 ≤ n && n ≤ 13) || n = 32 || n = 0x85 || n = 0xA0 || n = 0x1680 ||
    (0x2000 ≤ n && n ≤ 0x200A) || n = 0x2028 || n = 0x2029 || n = 0x202F ||
    n = 0x205F || n = 0x3000

/-- The scan of `strings.Fields`: `cur` holds the characters of the field
being read, last first. -/
def fieldsFrom : List Char → List Char → List String
  | [], cur => if cur.isEmpty then [] else [String.mk cur.reverse]
  | c :: cs, cur =>
    if isSpace c then
      if cur.isEmpty then fieldsFrom cs [] else String.mk cur.reverse :: fieldsFrom cs []
    else fieldsFrom cs (c :: cur)

/-- The library call `strings.Fields`: the maximal runs of non-space
characters. -/
def fields (s : String) : List String := fieldsFrom s.data []

/-- The value of one hex digit, either case, as in the reverse table of
`encoding/hex`; `none` for any other character. -/
def fromHexChar (c : Char) : Option Nat :=
  let n := c.toNat
  if 48 ≤ n ∧ n ≤ 57 then some (n - 48)
  else if 97 ≤ n ∧ n ≤ 102 then some (n - 87)
  else if 65 ≤ n ∧ n ≤ 70 then some (n - 55)
  else none

/-- The decoding loop of `hex.DecodeString`: two digits give one byte; a
character that is no hex digit or an odd number of characters is an error. -/
def hexDecodeChars : List Char → Option (List (Fin 256))
  | [] => some []
  | [_] => none
  | p :: q :: rest =>
    match fromHexChar p, fromHexChar q with
    | some a, some b =>
      match hexDecodeChars rest with
      | some bs => some (byteOf ((a <<< 4) ||| b) :: bs)
      | none => none
    | _, _ => none

/-- The library call `hex.DecodeString`, `none` standing for a non-nil error. -/
def hexDecodeString (s : String) : Option (List (Fin 256)) := hexDecodeChars s.data

/-- The statement `copy(dst[:], src)` into a fresh `[8]byte`: the first eight
bytes of `src`, and zero where `src` is shorter. -/
def copyBlock (src : List (Fin 256)) : Block :=
  { b0 := src.getD 0 0, b1 := src.getD 1 0, b2 := src.getD 2 0, b3 := src.getD 3 0,
    b4 := src.getD 4 0, b5 := src.getD 5 0, b6 := src.getD 6 0, b7 := src.getD 7 0 }

/-- The diagnostics of `parse`, one for each message it writes. -/
inductive ParseMsg where
  | invalidSyntax
  | plaintextNotHex
  | ciphertextNotHex
  | plaintextLength
  | ciphertextLength
  | readError
deriving DecidableEq, Repr

/-- What `parse` has built so far: the slice `pairs`, and the diagnostics
written without leaving the program. -/
structure Parsed where
  pairs : List textpair
  written : List ParseMsg
deriving DecidableEq, Repr

/-- The loop `for s.Scan()` of `parse` over the lines the scanner yields.  An
error result is a diagnostic followed by `os.Exit(1)`. -/
def parseLoop : List String → Parsed → Except ParseMsg Parsed
  | [], acc => .ok acc
  | line :: more, acc =>
    let parts := fields line
    if parts.length = 0 then parseLoop more acc
    else if parts.length ≠ 2 then .error .invalidSyntax
    else
      match hexDecodeString (parts.getD 0 "") with
      | none => .error .plaintextNotHex
      | some plainBytes =>
        match hexDecodeString (parts.getD 1 "") with
        | none => .error .ciphertextNotHex
        | some cipherBytes =>
          if plainBytes.length ≠ 8 then .error .plaintextLength
          else
            let written :=
              if cipherBytes.length ≠ 8 then acc.written ++ [ParseMsg.ciphertextLength]
              else acc.written
            let newPair : textpair :=
              { plaintext := copyBlock plainBytes, ciphertext := copyBlock cipherBytes }
            parseLoop more { pairs := acc.pairs ++ [newPair], written := written }

/-- The function `parse`, on the lines the scanner yields from the reader
and on whether `s.Err()` is non-nil once they are exhausted. -/
def parse (lines : List String) (scanErr : Bool) : Except ParseMsg Parsed :=
  match parseLoop lines { pairs := [], written := [] } with
  | .error e => .error e
  | .ok acc => if scanErr then .error .readError else .ok acc

/-! ## The generator (`generator.go`) -/

/-- The library call `strconv.Atoi` for a 64-bit `int`: an optional sign and
at least one decimal digit, in range; `none` stands for a non-nil error. -/
def atoi (s : String) : Option Int :=
  let cs := s.data
  let neg := cs.head? = some (Char.ofNat 45)
  let ds := if cs.head? = some (Char.ofNat 45) ∨ cs.head? = some (Char.ofNat 43)
    then cs.drop 1 else cs
  if ds.isEmpty ∨ ¬ ds.all (fun c => 48 ≤ c.toNat && c.toNat ≤ 57) then none
  else
    let v : Nat := ds.foldl (fun a c => a * 10 + (c.toNat - 48)) 0
    let n : Int := if neg then -(v : Int) else (v : Int)
    if n < -(2 ^ 63) ∨ 2 ^ 63 ≤ n then none else some n

/-- The library call `binary.BigEndian.Uint16` on two consecutive bytes. -/
def beUint16 (a b : Fin 256) : Nat := a.val * 2 ^ 8 + b.val

/-- The key `main` builds from the three decoded bytes:
`uint32(binary.BigEndian.Uint16(kbytes))`, then `(k << 8) | uint32(kbytes[2])`. -/
def keyOfBytes (kbytes : List (Fin 256)) : Nat :=
  let k := beUint16 (kbytes.getD 0 0) (kbytes.getD 1 0)
  shl32 k 8 ||| (kbytes.getD 2 0).val

/-- The line `genPair` prints, on the two values `rand.Uint32()` returns. -/
def genPair (k1 k2 : Nat) (r0 r1 : Nat) : String :=
  let m := putBlock (r0 % 2 ^ 32) (r1 % 2 ^ 32)
  let c := doubleEncrypt k1 k2 m
  hexEncodeToString m.toList ++ " " ++ hexEncodeToString c.toList ++ "\n"

/-- The loop `for i := 0; i < n; i++ { genPair(k1, k2) }`, by the number of
iterations still to run; `rand j` is the `j`-th value the random source
returns and `drawn` the number of values already taken. -/
def genLoop (k1 k2 : Nat) (rand : Nat → Nat) : Nat → Nat → List String
  | 0, _ => []
  | n + 1, drawn =>
    genPair k1 k2 (rand drawn) (rand (drawn + 1)) :: genLoop k1 k2 rand n (drawn + 2)

/-- The ways the generator leaves through `os.Exit(1)`, one for each message. -/
inductive GenExit where
  | usage
  | countNotInt
  | key1NotHex
  | key2NotHex
  | key1Length
  | key2Length
deriving DecidableEq, Repr

/-- How a run of the generator ends. -/
inductive GenOutcome where
  | exited (status : Nat) (why : GenExit)
  | printed (stdout : List String)
deriving DecidableEq, Repr

/-- The function `main` of `generator.go` on `os.Args` and the random source. -/
def generatorMain (args : List String) (rand : Nat → Nat) : GenOutcome :=
  if args.length ≠ 4 then .exited 1 .usage
  else
    match atoi (args.getD 1 "") with
    | none => .exited 1 .countNotInt
    | some n =>
      match hexDecodeString (args.getD 2 "") with
      | none => .exited 1 .key1NotHex
      | some k1bytes =>
        match hexDecodeString (args.getD 3 "") with
        | none => .exited 1 .key2NotHex
        | some k2bytes =>
          if k1bytes.length ≠ 3 then .exited 1 .key1Length
          else if k2bytes.length ≠ 3 then .exited 1 .key2Length
          else
            let k1 := keyOfBytes k1bytes
            let k2 := keyOfBytes k2bytes
            .printed (genLoop k1 k2 rand n.toNat 0)

/-! ## Auxiliary notions used in the statements and proofs -/

/-- The three bytes whose hex digits `printAnswer` prints for a key: bytes
1..3 of its four-byte big-endian encoding. -/
def answerKeyBytes (k : Nat) : List (Fin 256) :=
  [byteOf (k >>> 24), byteOf (k >>> 16), byteOf (k >>> 8), byteOf k].drop 1

/-- All three registers hold `uint32` values. -/
def Regs.Valid (r : Regs) : Prop := r.v0 < 2 ^ 32 ∧ r.v1 < 2 ^ 32 ∧ r.sum < 2 ^ 32

/-- The registers `encrypt` starts from. -/
def encryptInit (m : Block) : Regs :=
  { v0 := beUint32 m.b0 m.b1 m.b2 m.b3, v1 := beUint32 m.b4 m.b5 m.b6 m.b7, sum := 0 }

/-- The registers `decrypt` starts from. -/
def decryptInit (c : Block) : Regs :=
  { v0 := beUint32 c.b0 c.b1 c.b2 c.b3, v1 := beUint32 c.b4 c.b5 c.b6 c.b7,
    sum := (delta * rounds) &&& (2 ^ 32 - 1) }

/-- The keys `k`, `k2` meet in the middle on the sample `t`: encrypting the
plaintext under `k` and decrypting the ciphertext under `k2` give the same
block. -/
def Meets (t : textpair) (k k2 : Nat) : Prop :=
  encrypt k t.plaintext = decrypt k2 t.ciphertext

/-- What the map holds once the first loop of `crack` has run over the whole
key space for the plaintext `pt`: a block is present exactly when some key
below `2 ^ 24` encrypts `pt` to it, and it is mapped to the largest such key. -/
def ForwardTable (pt : Block) (m : GoMap) : Prop :=
  ∀ x : Block,
    (∀ j, m.lookup (hexEncodeToString x.toList) = some j →
      j < 16777216 ∧ encrypt j pt = x ∧ ∀ j2, j2 < 16777216 → encrypt j2 pt = x → j2 ≤ j) ∧
    (m.lookup (hexEncodeToString x.toList) = none →
      ∀ j2, j2 < 16777216 → encrypt j2 pt ≠ x)

/-- The block whose bytes are the big-endian digits of `n`. -/
def blockOfNat (n : Nat) : Block := putBlock (n / 2 ^ 32) (n % 2 ^ 32)

/-- The number a block spells, read as one big-endian integer. -/
def natOfBlock (b : Block) : Nat :=
  beUint32 b.b0 b.b1 b.b2 b.b3 * 2 ^ 32 + beUint32 b.b4 b.b5 b.b6 b.b7

/-! ## Facts about the machine arithmetic -/

theorem add32_lt (a b : Nat) : add32 a b < 2 ^ 32 :=
  Nat.mod_lt _ (by decide)

theorem sub32_lt (a b : Nat) : sub32 a b < 2 ^ 32 :=
  Nat.mod_lt _ (by decide)

theorem sub32_add32 (a f : Nat) (ha : a < 2 ^ 32) : sub32 (add32 a f) f = a := by
  unfold sub32 add32
  omega

theorem add32_sub32 (a f : Nat) (ha : a < 2 ^ 32) : add32 (sub32 a f) f = a := by
  unfold sub32 add32
  omega

theorem beUint32_lt (a b c d : Fin 256) : beUint32 a b c d < 2 ^ 32 := by
  unfold beUint32
  omega

theorem beUint32_bytes (v : Nat) (hv : v < 2 ^ 32) :
    beUint32 (byteOf (v >>> 24)) (byteOf (v >>> 16)) (byteOf (v >>> 8)) (byteOf v) = v := by
  simp only [beUint32, byteOf, Nat.shiftRight_eq_div_pow]
  omega

theorem byteOf_beUint32 (a b c d : Fin 256) :
    byteOf (beUint32 a b c d >>> 24) = a ∧ byteOf (beUint32 a b c d >>> 16) = b ∧
    byteOf (beUint32 a b c d >>> 8) = c ∧ byteOf (beUint32 a b c d) = d := by
  refine ⟨?_, ?_, ?_, ?_⟩ <;> apply Fin.ext <;>
    simp only [beUint32, byteOf, Nat.shiftRight_eq_div_pow] <;> omega

theorem putBlock_beUint32 (b : Block) :
    putBlock (beUint32 b.b0 b.b1 b.b2 b.b3) (beUint32 b.b4 b.b5 b.b6 b.b7) = b := by
  obtain ⟨h0, h1, h2, h3⟩ := byteOf_beUint32 b.b0 b.b1 b.b2 b.b3
  obtain ⟨h4, h5, h6, h7⟩ := byteOf_beUint32 b.b4 b.b5 b.b6 b.b7
  cases b
  simp only [putBlock] at *
  simp only [h0, h1, h2, h3, h4, h5, h6, h7]

/-! ## The two loops undo each other -/

theorem valid_encryptStep (key : List Nat) (r : Regs) : (encryptStep key r).Valid :=
  ⟨add32_lt _ _, add32_lt _ _, add32_lt _ _⟩

theorem valid_decryptStep (key : List Nat) (r : Regs) : (decryptStep key r).Valid :=
  ⟨sub32_lt _ _, sub32_lt _ _, sub32_lt _ _⟩

theorem decryptStep_encryptStep (key : List Nat) (r : Regs) (h : r.Valid) :
    decryptStep key (encryptStep key r) = r := by
  obtain ⟨h0, h1, hs⟩ := h
  cases r
  simp only [decryptStep, encryptStep] at *
  simp only [sub32_add32 _ _ h1, sub32_add32 _ _ hs, sub32_add32 _ _ h0]

theorem encryptStep_decryptStep (key : List Nat) (r : Regs) (h : r.Valid) :
    encryptStep key (decryptStep key r) = r := by
  obtain ⟨h0, h1, hs⟩ := h
  cases r
  simp only [decryptStep, encryptStep] at *
  simp only [add32_sub32 _ _ h0, add32_sub32 _ _ hs, add32_sub32 _ _ h1]

theorem encryptLoop_succ (key : List Nat) (n : Nat) (r : Regs) :
    encryptLoop key (n + 1) r = encryptStep key (encryptLoop key n r) := by
  induction n generalizing r with
  | zero => rfl
  | succ n ih => exact ih (encryptStep key r)

theorem decryptLoop_succ (key : List Nat) (n : Nat) (r : Regs) :
    decryptLoop key (n + 1) r = decryptStep key (decryptLoop key n r) := by
  induction n generalizing r with
  | zero => rfl
  | succ n ih => exact ih (decryptStep key r)

theorem valid_encryptLoop (key : List Nat) (n : Nat) (r : Regs) (h : r.Valid) :
    (encryptLoop key n r).Valid := by
  cases n with
  | zero => exact h
  | succ n => rw [encryptLoop_succ]; exact valid_encryptStep _ _

theorem valid_decryptLoop (key : List Nat) (n : Nat) (r : Regs) (h : r.Valid) :
    (decryptLoop key n r).Valid := by
  cases n with
  | zero => exact h
  | succ n => rw [decryptLoop_succ]; exact valid_decryptStep _ _

theorem decryptLoop_encryptLoop (key : List Nat) (n : Nat) (r : Regs) (h : r.Valid) :
    decryptLoop key n (encryptLoop key n r) = r := by
  induction n with
  | zero => rfl
  | succ n ih =>
    rw [encryptLoop_succ]
    show decryptLoop key n (decryptStep key (encryptStep key (encryptLoop key n r))) = r
    rw [decryptStep_encryptStep key _ (valid_encryptLoop key n r h), ih]

theorem encryptLoop_decryptLoop (key : List Nat) (n : Nat) (r : Regs) (h : r.Valid) :
    encryptLoop key n (decryptLoop key n r) = r := by
  induction n with
  | zero => rfl
  | succ n ih =>
    rw [decryptLoop_succ]
    show encryptLoop key n (encryptStep key (decryptStep key (decryptLoop key n r))) = r
    rw [encryptStep_decryptStep key _ (valid_decryptLoop key n r h), ih]

/-- The accumulator after `n` rounds of `encrypt`. -/
theorem encryptLoop_sum (key : List Nat) (n : Nat) (r : Regs) (h : r.sum < 2 ^ 32) :
    (encryptLoop key n r).sum = (r.sum + n * delta) % 2 ^ 32 := by
  induction n generalizing r with
  | zero => simp only [encryptLoop]; omega
  | succ n ih =>
    show (encryptLoop key n (encryptStep key r)).sum = _
    rw [ih _ (add32_lt _ _)]
    simp only [encryptStep, add32, delta]
    omega

/-- The accumulator after `n` rounds of `decrypt`. -/
theorem decryptLoop_sum (key : List Nat) (n : Nat) (r : Regs) (h : r.sum < 2 ^ 32) :
    (decryptLoop key n r).sum = (r.sum + n * (2 ^ 32 - delta)) % 2 ^ 32 := by
  induction n generalizing r with
  | zero => simp only [decryptLoop]; omega
  | succ n ih =>
    show (decryptLoop key n (decryptStep key r)).sum = _
    rw [ih _ (sub32_lt _ _)]
    simp only [decryptStep, sub32, delta]
    omega

theorem encryptInit_sum (m : Block) : (encryptInit m).sum = 0 := rfl

theorem decryptInit_sum (c : Block) : (decryptInit c).sum = 0x8DDE6E40 := by
  show (delta * rounds) &&& (2 ^ 32 - 1) = 0x8DDE6E40
  decide

theorem valid_encryptInit (m : Block) : (encryptInit m).Valid :=
  ⟨beUint32_lt _ _ _ _, beUint32_lt _ _ _ _, by rw [encryptInit_sum]; decide⟩

theorem valid_decryptInit (c : Block) : (decryptInit c).Valid :=
  ⟨beUint32_lt _ _ _ _, beUint32_lt _ _ _ _, by rw [decryptInit_sum]; decide⟩

theorem encrypt_eq (k : Nat) (m : Block) :
    encrypt k m =
      putBlock (encryptLoop (List.replicate 4 (k &&& ((1 <<< 24) - 1))) rounds (encryptInit m)).v0
        (encryptLoop (List.replicate 4 (k &&& ((1 <<< 24) - 1))) rounds (encryptInit m)).v1 := rfl

theorem decrypt_eq (k : Nat) (c : Block) :
    decrypt k c =
      putBlock (decryptLoop (List.replicate 4 (k &&& ((1 <<< 24) - 1))) rounds (decryptInit c)).v0
        (decryptLoop (List.replicate 4 (k &&& ((1 <<< 24) - 1))) rounds (decryptInit c)).v1 := rfl

/-- Reading back the block written from valid registers, with `decrypt`s
initial accumulator, gives the registers `encrypt` ended with. -/
theorem decryptInit_putBlock (r : Regs) (h : r.Valid)
    (hs : r.sum = (delta * rounds) &&& (2 ^ 32 - 1)) :
    decryptInit (putBlock r.v0 r.v1) = r := by
  obtain ⟨h0, h1, -⟩ := h
  cases r
  simp only at hs h0 h1
  simp only [decryptInit, putBlock, beUint32_bytes _ h0, beUint32_bytes _ h1, hs]

theorem encryptInit_putBlock (r : Regs) (h : r.Valid) (hs : r.sum = 0) :
    encryptInit (putBlock r.v0 r.v1) = r := by
  obtain ⟨h0, h1, -⟩ := h
  cases r
  simp only at hs h0 h1
  simp only [encryptInit, putBlock, beUint32_bytes _ h0, beUint32_bytes _ h1, hs]

theorem decrypt_encrypt (k : Nat) (b : Block) : decrypt k (encrypt k b) = b := by
  have hv := valid_encryptLoop (List.replicate 4 (k &&& ((1 <<< 24) - 1))) rounds _
    (valid_encryptInit b)
  have hs : (encryptLoop (List.replicate 4 (k &&& ((1 <<< 24) - 1))) rounds (encryptInit b)).sum
      = (delta * rounds) &&& (2 ^ 32 - 1) := by
    rw [encryptLoop_sum _ _ _ (valid_encryptInit b).2.2, encryptInit_sum]
    decide
  rw [decrypt_eq, encrypt_eq, decryptInit_putBlock _ hv hs,
    decryptLoop_encryptLoop _ _ _ (valid_encryptInit b)]
  exact putBlock_beUint32 b

theorem encrypt_decrypt (k : Nat) (b : Block) : encrypt k (decrypt k b) = b := by
  have hv := valid_decryptLoop (List.replicate 4 (k &&& ((1 <<< 24) - 1))) rounds _
    (valid_decryptInit b)
  have hs : (decryptLoop (List.replicate 4 (k &&& ((1 <<< 24) - 1))) rounds (decryptInit b)).sum
      = 0 := by
    rw [decryptLoop_sum _ _ _ (valid_decryptInit b).2.2, decryptInit_sum]
    decide
  rw [encrypt_eq, decrypt_eq, encryptInit_putBlock _ hv hs,
    encryptLoop_decryptLoop _ _ _ (valid_decryptInit b)]
  exact putBlock_beUint32 b

/-! ## The hex encoding is injective -/

theorem hexDigit_inj : ∀ i j : Fin 16, hexDigit i.val = hexDigit j.val → i = j := by
  decide

theorem nibbles (b : Fin 256) :
    b.val >>> 4 < 16 ∧ b.val &&& 0x0f < 16 ∧ b.val = (b.val >>> 4) * 16 + (b.val &&& 0x0f) := by
  have h1 : b.val >>> 4 = b.val / 16 := Nat.shiftRight_eq_div_pow _ 4
  have h2 : b.val &&& 0x0f = b.val % 16 := Nat.and_pow_two_sub_one_eq_mod b.val 4
  omega

theorem hexByte_inj (a b : Fin 256) (hhi : hexDigit (a.val >>> 4) = hexDigit (b.val >>> 4))
    (hlo : hexDigit (a.val &&& 0x0f) = hexDigit (b.val &&& 0x0f)) : a = b := by
  obtain ⟨a1, a2, a3⟩ := nibbles a
  obtain ⟨b1, b2, b3⟩ := nibbles b
  have e1 := congrArg Fin.val (hexDigit_inj ⟨_, a1⟩ ⟨_, b1⟩ hhi)
  have e2 := congrArg Fin.val (hexDigit_inj ⟨_, a2⟩ ⟨_, b2⟩ hlo)
  simp only at e1 e2
  apply Fin.ext
  omega

theorem hexChars_inj : ∀ l l' : List (Fin 256), hexChars l = hexChars l' → l = l'
  | [], [], _ => rfl
  | [], _ :: _, h => by simp [hexChars] at h
  | _ :: _, [], h => by simp [hexChars] at h
  | a :: l, b :: l', h => by
    simp only [hexChars, List.cons.injEq] at h
    obtain ⟨h1, h2, h3⟩ := h
    rw [hexByte_inj a b h1 h2, hexChars_inj l l' h3]

theorem toList_inj (a b : Block) (h : a.toList = b.toList) : a = b := by
  cases a
  cases b
  simp only [Block.toList, List.cons.injEq, and_true] at h
  obtain ⟨h0, h1, h2, h3, h4, h5, h6, h7⟩ := h
  subst h0 h1 h2 h3 h4 h5 h6 h7
  rfl

/-- Two blocks with the same hex string are the same block, so the string
keys of the map stand for the blocks themselves. -/
theorem hexBlock_inj (a b : Block)
    (h : hexEncodeToString a.toList = hexEncodeToString b.toList) : a = b := by
  apply toList_inj
  apply hexChars_inj
  exact congrArg String.data h

/-! ## The map -/

theorem lookup_empty (s : String) : GoMap.empty.lookup s = none := rfl

theorem lookup_insert (m : GoMap) (k s : String) (v : Nat) :
    (m.insert k v).lookup s = if k = s then some v else m.lookup s := by
  unfold GoMap.lookup GoMap.insert
  by_cases h : k = s
  · simp [h]
  · simp [h, List.find?_cons]

/-! ## The loops of `crack` -/

theorem keySpace_eq : (1 <<< 24 : Nat) = 16777216 := by decide

theorem add32_one (k : Nat) (h : k < 16777216) : add32 k 1 = k + 1 := by
  unfold add32
  omega

theorem forwardLoop_zero (texts : List textpair) (k : Nat) (m : GoMap) :
    forwardLoop texts 0 k m = .ok m := by
  simp only [forwardLoop]

theorem forwardLoop_step (t0 : textpair) (rest : List textpair) (n k : Nat) (m : GoMap)
    (h : k < 16777216) :
    forwardLoop (t0 :: rest) (n + 1) k m =
      forwardLoop (t0 :: rest) n (k + 1)
        (m.insert (hexEncodeToString (encrypt k t0.plaintext).toList) k) := by
  simp only [forwardLoop, List.getElem?_cons_zero, add32_one k h]

theorem forwardLoop_nil (n k : Nat) (m : GoMap) :
    forwardLoop [] (n + 1) k m = .error .indexOutOfRange := by
  simp only [forwardLoop, List.getElem?_nil]

theorem forwardLoop_inv (t0 : textpair) (rest : List textpair) :
    ∀ (d k : Nat) (m : GoMap), k + d = 16777216 →
      ∃ m2, forwardLoop (t0 :: rest) d k m = .ok m2 ∧ ∀ x : Block,
        (∀ j, m2.lookup (hexEncodeToString x.toList) = some j →
          (k ≤ j ∧ j < 16777216 ∧ encrypt j t0.plaintext = x ∧
            ∀ j2, j < j2 → j2 < 16777216 → encrypt j2 t0.plaintext ≠ x) ∨
          (m.lookup (hexEncodeToString x.toList) = some j ∧
            ∀ j2, k ≤ j2 → j2 < 16777216 → encrypt j2 t0.plaintext ≠ x)) ∧
        (m2.lookup (hexEncodeToString x.toList) = none →
          m.lookup (hexEncodeToString x.toList) = none ∧
            ∀ j2, k ≤ j2 → j2 < 16777216 → encrypt j2 t0.plaintext ≠ x) := by
  intro d
  induction d with
  | zero =>
    intro k m hk
    refine ⟨m, forwardLoop_zero _ _ _, fun x => ⟨fun j hj => ?_, fun hn => ?_⟩⟩
    · exact Or.inr ⟨hj, fun j2 h1 h2 => by omega⟩
    · exact ⟨hn, fun j2 h1 h2 => by omega⟩
  | succ d ih =>
    intro k m hk
    have hlt : k < 16777216 := by omega
    obtain ⟨m2, hm2, hspec⟩ :=
      ih (k + 1) (m.insert (hexEncodeToString (encrypt k t0.plaintext).toList) k) (by omega)
    refine ⟨m2, by rw [forwardLoop_step _ _ _ _ _ hlt]; exact hm2, fun x => ?_⟩
    obtain ⟨hs, hn⟩ := hspec x
    have hrange : encrypt k t0.plaintext ≠ x →
        (∀ j2, k + 1 ≤ j2 → j2 < 16777216 → encrypt j2 t0.plaintext ≠ x) →
        ∀ j2, k ≤ j2 → j2 < 16777216 → encrypt j2 t0.plaintext ≠ x := by
      intro he h2 j2 hle hN
      by_cases hj : j2 = k
      · rw [hj]; exact he
      · exact h2 j2 (by omega) hN
    constructor
    · intro j hj
      rcases hs j hj with ⟨h1, h2, h3, h4⟩ | ⟨h1, h2⟩
      · exact Or.inl ⟨by omega, h2, h3, h4⟩
      · rw [lookup_insert] at h1
        by_cases he : hexEncodeToString (encrypt k t0.plaintext).toList
            = hexEncodeToString x.toList
        · rw [if_pos he] at h1
          have hkj : k = j := Option.some.inj h1
          subst hkj
          exact Or.inl ⟨le_refl _, hlt, hexBlock_inj _ _ he,
            fun j2 hlt2 hN => h2 j2 (by omega) hN⟩
        · rw [if_neg he] at h1
          exact Or.inr ⟨h1, hrange (fun h => he (by rw [h])) h2⟩
    · intro hnone
      obtain ⟨h1, h2⟩ := hn hnone
      rw [lookup_insert] at h1
      by_cases he : hexEncodeToString (encrypt k t0.plaintext).toList
          = hexEncodeToString x.toList
      · rw [if_pos he] at h1
        exact absurd h1 (by simp)
      · rw [if_neg he] at h1
        exact ⟨h1, hrange (fun h => he (by rw [h])) h2⟩

/-- The first loop of `crack` on a non-empty corpus ends and leaves the table
of the pivot plaintext. -/
theorem forwardLoop_table (t0 : textpair) (rest : List textpair) :
    ∃ m, forwardLoop (t0 :: rest) 16777216 0 GoMap.empty = .ok m ∧
      ForwardTable t0.plaintext m := by
  obtain ⟨m, hm, hspec⟩ := forwardLoop_inv t0 rest 16777216 0 GoMap.empty (by omega)
  refine ⟨m, hm, fun x => ⟨fun j hj => ?_, fun hn => ?_⟩⟩
  · rcases (hspec x).1 j hj with ⟨-, h2, h3, h4⟩ | ⟨h1, -⟩
    · refine ⟨h2, h3, fun j2 hN he => ?_⟩
      by_contra hcon
      exact h4 j2 (by omega) hN he
    · rw [lookup_empty] at h1
      exact absurd h1 (by simp)
  · exact fun j2 hN => ((hspec x).2 hn).2 j2 (Nat.zero_le _) hN

theorem backwardLoop_zero (texts : List textpair) (m : GoMap) (k : Nat) :
    backwardLoop texts m 0 k = .ok { key1 := 0, key2 := 0 } := by
  simp only [backwardLoop]

theorem backwardLoop_nil (m : GoMap) (n k : Nat) :
    backwardLoop [] m (n + 1) k = .error .indexOutOfRange := by
  simp only [backwardLoop, List.getElem?_nil]

theorem backwardLoop_miss (t0 : textpair) (rest : List textpair) (m : GoMap) (n k : Nat)
    (h : k < 16777216)
    (hl : m.lookup (hexEncodeToString (decrypt k t0.ciphertext).toList) = none) :
    backwardLoop (t0 :: rest) m (n + 1) k = backwardLoop (t0 :: rest) m n (k + 1) := by
  simp only [backwardLoop, List.getElem?_cons_zero, hl, add32_one k h]

theorem backwardLoop_hit (t0 : textpair) (rest : List textpair) (m : GoMap) (n k j : Nat)
    (hl : m.lookup (hexEncodeToString (decrypt k t0.ciphertext).toList) = some j)
    (ht : testDoubleEncryption j k t0.plaintext t0.ciphertext = true) :
    backwardLoop (t0 :: rest) m (n + 1) k = .ok { key1 := j, key2 := k } := by
  simp only [backwardLoop, List.getElem?_cons_zero, hl, ht, if_true]

/-- Keys meet in the middle on a sample exactly when they double-encrypt its
plaintext to its ciphertext. -/
theorem meets_iff (t : textpair) (k k2 : Nat) :
    Meets t k k2 ↔ doubleEncrypt k k2 t.plaintext = t.ciphertext := by
  unfold Meets doubleEncrypt
  constructor
  · intro h
    rw [h, encrypt_decrypt]
  · intro h
    rw [← h, decrypt_encrypt]

theorem testDoubleEncryption_iff (k k2 : Nat) (t : textpair) :
    testDoubleEncryption k k2 t.plaintext t.ciphertext = true ↔ Meets t k k2 := by
  rw [meets_iff]
  simp only [testDoubleEncryption, decide_eq_true_eq]

theorem backwardLoop_inv (t0 : textpair) (rest : List textpair) (m : GoMap)
    (hm : ForwardTable t0.plaintext m) :
    ∀ (d k : Nat), k + d = 16777216 →
      ∃ r, backwardLoop (t0 :: rest) m d k = .ok r ∧
        ((k ≤ r.key2 ∧ r.key2 < 16777216 ∧
            m.lookup (hexEncodeToString (decrypt r.key2 t0.ciphertext).toList) = some r.key1 ∧
            ∀ k2, k ≤ k2 → k2 < r.key2 →
              m.lookup (hexEncodeToString (decrypt k2 t0.ciphertext).toList) = none) ∨
          (r = { key1 := 0, key2 := 0 } ∧
            ∀ k2, k ≤ k2 → k2 < 16777216 →
              m.lookup (hexEncodeToString (decrypt k2 t0.ciphertext).toList) = none)) := by
  intro d
  induction d with
  | zero =>
    intro k hk
    exact ⟨_, backwardLoop_zero _ _ _, Or.inr ⟨rfl, fun k2 h1 h2 => by omega⟩⟩
  | succ d ih =>
    intro k hk
    have hlt : k < 16777216 := by omega
    cases hl : m.lookup (hexEncodeToString (decrypt k t0.ciphertext).toList) with
    | none =>
      obtain ⟨r, hr, hspec⟩ := ih (k + 1) (by omega)
      refine ⟨r, by rw [backwardLoop_miss _ _ _ _ _ hlt hl]; exact hr, ?_⟩
      have hext : ∀ b, (∀ k2, k + 1 ≤ k2 → k2 < b →
            m.lookup (hexEncodeToString (decrypt k2 t0.ciphertext).toList) = none) →
          ∀ k2, k ≤ k2 → k2 < b →
            m.lookup (hexEncodeToString (decrypt k2 t0.ciphertext).toList) = none := by
        intro b hb k2 h1 h2
        by_cases hk2 : k2 = k
        · rw [hk2]; exact hl
        · exact hb k2 (by omega) h2
      rcases hspec with ⟨h1, h2, h3, h4⟩ | ⟨h1, h2⟩
      · exact Or.inl ⟨by omega, h2, h3, hext _ h4⟩
      · exact Or.inr ⟨h1, hext _ h2⟩
    | some j =>
      have hmeet : Meets t0 j k := ((hm (decrypt k t0.ciphertext)).1 j hl).2.1
      refine ⟨_, backwardLoop_hit _ _ _ _ _ _ hl ((testDoubleEncryption_iff _ _ _).2 hmeet),
        Or.inl ⟨le_refl _, hlt, hl, fun k2 h1 h2 => absurd h2 (Nat.not_lt.mpr h1)⟩⟩

theorem crack_of_forward (texts : List textpair) (m : GoMap)
    (h : forwardLoop texts 16777216 0 GoMap.empty = .ok m) :
    crack texts = backwardLoop texts m 16777216 0 := by
  show (match forwardLoop texts (1 <<< 24) 0 GoMap.empty with
    | .error p => Except.error p
    | .ok c => backwardLoop texts c (1 <<< 24) 0) = _
  rw [keySpace_eq, h]

theorem crack_of_forward_error (texts : List textpair) (p : GoPanic)
    (h : forwardLoop texts 16777216 0 GoMap.empty = .error p) :
    crack texts = .error p := by
  show (match forwardLoop texts (1 <<< 24) 0 GoMap.empty with
    | .error p => Except.error p
    | .ok c => backwardLoop texts c (1 <<< 24) 0) = _
  rw [keySpace_eq, h]

/-- What `crack` returns on a non-empty corpus.  Either some pair of keys
below `2 ^ 24` meets in the middle on the first sample, and the result is
the smallest second key of such a pair with the largest first key meeting
it; or no pair does, and the result is the pair of zeros. -/
theorem crack_cons (t0 : textpair) (rest : List textpair) :
    ∃ r, crack (t0 :: rest) = .ok r ∧
      ((r.key1 < 16777216 ∧ r.key2 < 16777216 ∧ Meets t0 r.key1 r.key2 ∧
          (∀ k k2, k < 16777216 → k2 < 16777216 → Meets t0 k k2 → r.key2 ≤ k2) ∧
          (∀ k, k < 16777216 → Meets t0 k r.key2 → k ≤ r.key1)) ∨
        (r = { key1 := 0, key2 := 0 } ∧
          ∀ k k2, k < 16777216 → k2 < 16777216 → ¬ Meets t0 k k2)) := by
  obtain ⟨m, hfw, hm⟩ := forwardLoop_table t0 rest
  obtain ⟨r, hr, hspec⟩ := backwardLoop_inv t0 rest m hm 16777216 0 (by omega)
  refine ⟨r, by rw [crack_of_forward _ _ hfw]; exact hr, ?_⟩
  rcases hspec with ⟨-, h2, h3, h4⟩ | ⟨h1, h2⟩
  · obtain ⟨a1, a2, a3⟩ := (hm (decrypt r.key2 t0.ciphertext)).1 r.key1 h3
    refine Or.inl ⟨a1, h2, a2, fun k k2 hk hk2 hmeet => ?_, fun k hk hmeet => a3 k hk hmeet⟩
    by_contra hcon
    exact (hm (decrypt k2 t0.ciphertext)).2 (h4 k2 (Nat.zero_le _) (by omega)) k hk hmeet
  · exact Or.inr ⟨h1, fun k k2 hk hk2 hmeet =>
      (hm (decrypt k2 t0.ciphertext)).2 (h2 k2 (Nat.zero_le _) hk2) k hk hmeet⟩

theorem crack_nil : crack [] = .error .indexOutOfRange := by
  exact crack_of_forward_error _ _ (forwardLoop_nil 16777215 0 GoMap.empty)

/-- A later sample is never read: the corpus enters `crack` only through
`texts[0]`. -/
theorem forwardLoop_cons (t0 : textpair) (rest : List textpair) :
    ∀ (n k : Nat) (m : GoMap), forwardLoop (t0 :: rest) n k m = forwardLoop [t0] n k m := by
  intro n
  induction n with
  | zero => intro k m; rw [forwardLoop_zero, forwardLoop_zero]
  | succ n ih =>
    intro k m
    simp only [forwardLoop, List.getElem?_cons_zero, ih]

theorem backwardLoop_cons (t0 : textpair) (rest : List textpair) (m : GoMap) :
    ∀ (n k : Nat), backwardLoop (t0 :: rest) m n k = backwardLoop [t0] m n k := by
  intro n
  induction n with
  | zero => intro k; rw [backwardLoop_zero, backwardLoop_zero]
  | succ n ih =>
    intro k
    simp only [backwardLoop, List.getElem?_cons_zero, ih]

theorem crack_cons_eq (t0 : textpair) (rest : List textpair) :
    crack (t0 :: rest) = crack [t0] := by
  obtain ⟨m, hm, -⟩ := forwardLoop_table t0 rest
  rw [crack_of_forward _ _ hm, backwardLoop_cons t0 rest]
  rw [forwardLoop_cons t0 rest] at hm
  rw [crack_of_forward _ _ hm]

/-! ## Counting blocks -/

theorem natOfBlock_blockOfNat (n : Nat) (h : n < 2 ^ 64) : natOfBlock (blockOfNat n) = n := by
  have h0 : n / 2 ^ 32 < 2 ^ 32 := by omega
  have h1 : n % 2 ^ 32 < 2 ^ 32 := by omega
  simp only [natOfBlock, blockOfNat, putBlock, beUint32_bytes _ h0, beUint32_bytes _ h1]
  omega

/-- There are more blocks than pairs of 24-bit keys, so for every plaintext
some block is the double encryption of it under no pair of 24-bit keys. -/
theorem exists_unreachable (pt : Block) :
    ∃ c : Block, ∀ k k2, k < 16777216 → k2 < 16777216 → doubleEncrypt k k2 pt ≠ c := by
  by_contra hcon
  push_neg at hcon
  choose f g hf hg hfg using hcon
  have hinj : Function.Injective
      (fun n : Fin (2 ^ 49) =>
        ((⟨f (blockOfNat n.val), hf _⟩, ⟨g (blockOfNat n.val), hg _⟩) :
          Fin 16777216 × Fin 16777216)) := by
    intro a b hab
    simp only [Prod.mk.injEq, Fin.mk.injEq] at hab
    have hb : blockOfNat a.val = blockOfNat b.val := by
      rw [← hfg (blockOfNat a.val), ← hfg (blockOfNat b.val), hab.1, hab.2]
    have ha64 : a.val < 2 ^ 64 := lt_trans a.isLt (by norm_num)
    have hb64 : b.val < 2 ^ 64 := lt_trans b.isLt (by norm_num)
    have hn := congrArg natOfBlock hb
    rw [natOfBlock_blockOfNat _ ha64, natOfBlock_blockOfNat _ hb64] at hn
    exact Fin.ext hn
  have hcard := Fintype.card_le_of_injective _ hinj
  simp only [Fintype.card_fin, Fintype.card_prod] at hcard
  norm_num at hcard

/-! ## Masked keys -/

theorem mask_lt (k : Nat) : k &&& 0xFFFFFF < 16777216 :=
  Nat.and_lt_two_pow k (show 0xFFFFFF < 2 ^ 24 by decide)

theorem encrypt_mask (k : Nat) (b : Block) : encrypt (k &&& 0xFFFFFF) b = encrypt k b := by
  have hmask : (k &&& 0xFFFFFF) &&& ((1 <<< 24) - 1) = k &&& ((1 <<< 24) - 1) := by
    rw [Nat.and_assoc]
    rfl
  rw [encrypt_eq, encrypt_eq, hmask]

theorem decrypt_mask (k : Nat) (b : Block) : decrypt (k &&& 0xFFFFFF) b = decrypt k b := by
  have hmask : (k &&& 0xFFFFFF) &&& ((1 <<< 24) - 1) = k &&& ((1 <<< 24) - 1) := by
    rw [Nat.and_assoc]
    rfl
  rw [decrypt_eq, decrypt_eq, hmask]

/-- Keys meet on a sample exactly when their low 24 bits do. -/
theorem meets_mask (t : textpair) (k k2 : Nat) :
    Meets t (k &&& 0xFFFFFF) (k2 &&& 0xFFFFFF) ↔ Meets t k k2 := by
  unfold Meets
  rw [encrypt_mask, decrypt_mask]

/-! ## Key bytes -/

theorem keyOfBytes_eq (b0 b1 b2 : Fin 256) :
    keyOfBytes [b0, b1, b2] = b0.val * 2 ^ 16 + b1.val * 2 ^ 8 + b2.val := by
  have h0 := b0.isLt
  have h1 := b1.isLt
  have h2 : b2.val < 2 ^ 8 := b2.isLt
  have hshl : shl32 (b0.val * 2 ^ 8 + b1.val) 8 = 2 ^ 8 * (b0.val * 2 ^ 8 + b1.val) := by
    simp only [shl32, Nat.shiftLeft_eq]
    omega
  show shl32 (b0.val * 2 ^ 8 + b1.val) 8 ||| b2.val = _
  rw [hshl, ← Nat.mul_add_lt_is_or h2]
  omega

theorem answerKeyBytes_eq (k : Nat) :
    answerKeyBytes k = [byteOf (k >>> 16), byteOf (k >>> 8), byteOf k] := rfl

theorem keyOfBytes_answerKeyBytes (k : Nat) (h : k < 16777216) :
    keyOfBytes (answerKeyBytes k) = k := by
  rw [answerKeyBytes_eq, keyOfBytes_eq]
  simp only [byteOf, Nat.shiftRight_eq_div_pow]
  omega

theorem answerKeyBytes_mask (k : Nat) : answerKeyBytes (k &&& 0xFFFFFF) = answerKeyBytes k := by
  have hm : k &&& 0xFFFFFF = k % 2 ^ 24 := Nat.and_pow_two_sub_one_eq_mod k 24
  rw [answerKeyBytes_eq, answerKeyBytes_eq, hm]
  simp only [byteOf, Nat.shiftRight_eq_div_pow, List.cons.injEq, Fin.mk.injEq, and_true]
  omega

theorem fromHexChar_hexDigit : ∀ i : Fin 16, fromHexChar (hexDigit i.val) = some i.val := by
  decide

theorem byte_of_nibbles (b : Fin 256) :
    byteOf (((b.val >>> 4) <<< 4) ||| (b.val &&& 0x0f)) = b := by
  have h1 : b.val >>> 4 = b.val / 16 := Nat.shiftRight_eq_div_pow _ 4
  have h2 : b.val &&& 0x0f = b.val % 16 := Nat.and_pow_two_sub_one_eq_mod b.val 4
  have h3 : b.val % 16 < 2 ^ 4 := Nat.mod_lt _ (by decide)
  have h4 : (b.val / 16) <<< 4 = 2 ^ 4 * (b.val / 16) := by
    rw [Nat.shiftLeft_eq, Nat.mul_comm]
  apply Fin.ext
  rw [h1, h2, h4, ← Nat.mul_add_lt_is_or h3]
  simp only [byteOf]
  omega

/-- Decoding the hex digits of a byte sequence gives the sequence back. -/
theorem hexDecode_hexEncode (bs : List (Fin 256)) :
    hexDecodeString (hexEncodeToString bs) = some bs := by
  show hexDecodeChars (hexChars bs) = some bs
  induction bs with
  | nil => rfl
  | cons b bs ih =>
    obtain ⟨n1, n2, -⟩ := nibbles b
    have e1 := fromHexChar_hexDigit ⟨_, n1⟩
    have e2 := fromHexChar_hexDigit ⟨_, n2⟩
    simp only at e1 e2
    simp only [hexChars, hexDecodeChars, e1, e2, ih, byte_of_nibbles]

/-! ## The claims -/

/-- C1: for every key `k`, in particular every 32-bit key whatever its upper
eight bits, and every block `b`, decrypting the encryption of `b` under `k`
gives back `b`. -/
theorem C1_decrypt_encrypt (k : Nat) (b : Block) : decrypt k (encrypt k b) = b :=
  decrypt_encrypt k b

/-- C2: for every key `k` and every block `b`, encrypting the decryption of
`b` under `k` gives back `b`; hence `encrypt` under a fixed key is a bijection
on blocks. -/
theorem C2_encrypt_decrypt (k : Nat) :
    (∀ b : Block, encrypt k (decrypt k b) = b) ∧ Function.Bijective (encrypt k) :=
  ⟨encrypt_decrypt k,
    Function.bijective_iff_has_inverse.2 ⟨decrypt k, decrypt_encrypt k, encrypt_decrypt k⟩⟩

/-- C3: for all keys `k1`, `k2` and every block `b`, `doubleDecrypt` undoes
`doubleEncrypt` under the same keys. -/
theorem C3_doubleDecrypt_doubleEncrypt (k1 k2 : Nat) (b : Block) :
    doubleDecrypt k1 k2 (doubleEncrypt k1 k2 b) = b := by
  unfold doubleDecrypt doubleEncrypt
  rw [decrypt_encrypt, decrypt_encrypt]

/-- C4: the high bits of the key never influence the cipher: `encrypt` and
`decrypt` under `k` agree with those under `k & 0xFFFFFF`. -/
theorem C4_key_masking (k : Nat) (b : Block) :
    encrypt k b = encrypt (k &&& 0xFFFFFF) b ∧ decrypt k b = decrypt (k &&& 0xFFFFFF) b := by
  have hmask : (k &&& 0xFFFFFF) &&& ((1 <<< 24) - 1) = k &&& ((1 <<< 24) - 1) := by
    rw [Nat.and_assoc]
    rfl
  constructor
  · rw [encrypt_eq, encrypt_eq, hmask]
  · rw [decrypt_eq, decrypt_eq, hmask]

/-- C5: the meet-in-the-middle invariant.  If `c` is the double encryption of
`m` under `k1` then `k2`, the encryption of `m` under `k1` equals the
decryption of `c` under `k2`. -/
theorem C5_meet_in_the_middle (k1 k2 : Nat) (m c : Block) (h : c = doubleEncrypt k1 k2 m) :
    encrypt k1 m = decrypt k2 c := by
  rw [h, doubleEncrypt, decrypt_encrypt]

set_option maxRecDepth 1000000 in
/-- C5 at the keys of the usage example and the zero plaintext. -/
theorem C5_meet_in_the_middle_witness :
    (⟨143, 139, 31, 217, 125, 73, 224, 92⟩ : Block) = doubleEncrypt 0x013456 0x7890AB zeroBlock ∧
      encrypt 0x013456 zeroBlock = decrypt 0x7890AB ⟨143, 139, 31, 217, 125, 73, 224, 92⟩ :=
  ⟨by decide, C5_meet_in_the_middle _ _ _ _ (by decide)⟩

/-- C6, as the code has it: for 24-bit keys `key1`, `key2` and a non-empty
corpus all of whose samples are double encryptions under them, `crack`
returns a pair of 24-bit keys that double-encrypts the first plaintext to the
first ciphertext, whose second key is at most `key2` (and whose first key is at
least `key1` when the second keys agree); it is exactly `(key1, key2)`
whenever that is the only pair of 24-bit keys explaining the first sample. -/
theorem C6_recovery (key1 key2 : Nat) (t0 : textpair) (rest : List textpair)
    (h1 : key1 < 2 ^ 24) (h2 : key2 < 2 ^ 24)
    (h : ∀ s ∈ t0 :: rest, s.ciphertext = doubleEncrypt key1 key2 s.plaintext) :
    ∃ r, crack (t0 :: rest) = .ok r ∧ r.key1 < 2 ^ 24 ∧ r.key2 < 2 ^ 24 ∧
      doubleEncrypt r.key1 r.key2 t0.plaintext = t0.ciphertext ∧
      r.key2 ≤ key2 ∧ (r.key2 = key2 → key1 ≤ r.key1) ∧
      ((∀ k k2, k < 2 ^ 24 → k2 < 2 ^ 24 →
          doubleEncrypt k k2 t0.plaintext = t0.ciphertext → k = key1 ∧ k2 = key2) →
        r = { key1 := key1, key2 := key2 }) := by
  have hgen : Meets t0 key1 key2 :=
    (meets_iff _ _ _).2 (h t0 (List.mem_cons_self _ _)).symm
  obtain ⟨r, hr, hspec⟩ := crack_cons t0 rest
  rcases hspec with ⟨a1, a2, a3, a4, a5⟩ | ⟨-, hno⟩
  · have hde := (meets_iff _ _ _).1 a3
    refine ⟨r, hr, a1, a2, hde, a4 _ _ h1 h2 hgen, fun he => a5 key1 h1 (he ▸ hgen),
      fun huniq => ?_⟩
    obtain ⟨e1, e2⟩ := huniq r.key1 r.key2 a1 a2 hde
    cases r
    simp only at e1 e2
    rw [e1, e2]
  · exact absurd hgen (hno _ _ h1 h2)

set_option maxRecDepth 1000000 in
/-- C6 at the keys of the usage example and the zero plaintext. -/
theorem C6_recovery_witness :
    ∃ r, crack [⟨zeroBlock, ⟨143, 139, 31, 217, 125, 73, 224, 92⟩⟩] = .ok r ∧
      r.key1 < 2 ^ 24 ∧ r.key2 < 2 ^ 24 ∧
      doubleEncrypt r.key1 r.key2 zeroBlock = ⟨143, 139, 31, 217, 125, 73, 224, 92⟩ ∧
      r.key2 ≤ 0x7890AB ∧ (r.key2 = 0x7890AB → 0x013456 ≤ r.key1) ∧
      ((∀ k k2, k < 2 ^ 24 → k2 < 2 ^ 24 →
          doubleEncrypt k k2 zeroBlock = ⟨143, 139, 31, 217, 125, 73, 224, 92⟩ →
          k = 0x013456 ∧ k2 = 0x7890AB) →
        r = { key1 := 0x013456, key2 := 0x7890AB }) :=
  C6_recovery 0x013456 0x7890AB ⟨zeroBlock, ⟨143, 139, 31, 217, 125, 73, 224, 92⟩⟩ []
    (by decide) (by decide)
    (by
      intro s hs
      rw [List.mem_singleton] at hs
      subst hs
      decide)

set_option maxRecDepth 1000000 in
/-- C6 fails as stated: the zero block has the same double encryption under
the 24-bit key pairs `(0xAF4B20, 0x000038)` and `(0xCCCE1A, 0x0002C0)`, so on
the one-sample corpus generated with the second pair `crack`, which returns a
second key of at most `0x38`, does not return that pair. -/
theorem C6_counterexample :
    (0xCCCE1A < 2 ^ 24 ∧ 0x0002C0 < 2 ^ 24) ∧
      (∀ s ∈ [(⟨zeroBlock, ⟨0x3b, 0x6f, 0x38, 0x8a, 0x54, 0x74, 0x02, 0xc3⟩⟩ : textpair)],
        s.ciphertext = doubleEncrypt 0xCCCE1A 0x0002C0 s.plaintext) ∧
      crack [⟨zeroBlock, ⟨0x3b, 0x6f, 0x38, 0x8a, 0x54, 0x74, 0x02, 0xc3⟩⟩]
        ≠ .ok { key1 := 0xCCCE1A, key2 := 0x0002C0 } := by
  refine ⟨⟨by decide, by decide⟩, ?_, ?_⟩
  · intro s hs
    rw [List.mem_singleton] at hs
    subst hs
    decide
  · have hother :
        Meets ⟨zeroBlock, ⟨0x3b, 0x6f, 0x38, 0x8a, 0x54, 0x74, 0x02, 0xc3⟩⟩ 0xAF4B20 0x000038 :=
      (meets_iff _ _ _).2 (by decide)
    obtain ⟨r, hr, hspec⟩ :=
      crack_cons ⟨zeroBlock, ⟨0x3b, 0x6f, 0x38, 0x8a, 0x54, 0x74, 0x02, 0xc3⟩⟩ []
    intro hcon
    rw [hr] at hcon
    have hre : r = { key1 := 0xCCCE1A, key2 := 0x0002C0 } := Except.ok.inj hcon
    rcases hspec with ⟨-, -, -, a4, -⟩ | ⟨-, hno⟩
    · have hle := a4 _ _ (by decide) (by decide) hother
      rw [hre] at hle
      exact absurd hle (by decide)
    · exact absurd hother (hno _ _ (by decide) (by decide))

/-- C7: on every non-empty corpus `crack` returns, and what it returns is
either the fallback pair of zeros or a pair that double-encrypts the first
plaintext to the first ciphertext. -/
theorem C7_crack_sound (t0 : textpair) (rest : List textpair) :
    ∃ r, crack (t0 :: rest) = .ok r ∧
      (r = { key1 := 0, key2 := 0 } ∨
        doubleEncrypt r.key1 r.key2 t0.plaintext = t0.ciphertext) := by
  obtain ⟨r, hr, hspec⟩ := crack_cons t0 rest
  refine ⟨r, hr, ?_⟩
  rcases hspec with ⟨-, -, h, -⟩ | ⟨h, -⟩
  · exact Or.inr ((meets_iff _ _ _).1 h)
  · exact Or.inl h

/-- C8, as the code has it: on every non-empty corpus `crack` returns a key
pair, never a failure value, and when no pair of keys below `2 ^ 24`
double-encrypts the first plaintext to the first ciphertext that pair is the
pair of zeros. -/
theorem C8_nothing_found_returns_zeros (t0 : textpair) (rest : List textpair) :
    ∃ r, crack (t0 :: rest) = .ok r ∧
      ((∀ k k2, k < 2 ^ 24 → k2 < 2 ^ 24 →
          doubleEncrypt k k2 t0.plaintext ≠ t0.ciphertext) →
        r = { key1 := 0, key2 := 0 }) := by
  obtain ⟨r, hr, hspec⟩ := crack_cons t0 rest
  refine ⟨r, hr, fun hno => ?_⟩
  rcases hspec with ⟨h1, h2, h, -⟩ | ⟨h, -⟩
  · exact absurd ((meets_iff _ _ _).1 h) (hno _ _ h1 h2)
  · exact h

/-- C8 fails as stated: there is a one-sample corpus that no pair of keys
below `2 ^ 24` explains, and on it `crack` returns the all-zero key pair as
an ordinary result. -/
theorem C8_counterexample :
    ∃ t0 : textpair,
      (∀ k k2, k < 2 ^ 24 → k2 < 2 ^ 24 →
        doubleEncrypt k k2 t0.plaintext ≠ t0.ciphertext) ∧
      crack [t0] = .ok { key1 := 0, key2 := 0 } := by
  obtain ⟨c, hc⟩ := exists_unreachable zeroBlock
  refine ⟨⟨zeroBlock, c⟩, hc, ?_⟩
  obtain ⟨r, hr, hspec⟩ := crack_cons ⟨zeroBlock, c⟩ []
  rcases hspec with ⟨h1, h2, h, -⟩ | ⟨h, -⟩
  · exact absurd ((meets_iff _ _ _).1 h) (hc _ _ h1 h2)
  · rw [hr, h]

/-- C9, as the code has it: on a corpus with more than one sample `crack`
returns what it returns on the first sample alone, and that pair is the
fallback pair of zeros or double-encrypts the first plaintext to the first
ciphertext; the later samples are not checked. -/
theorem C9_first_sample_only (t0 t1 : textpair) (rest : List textpair) :
    ∃ r, crack (t0 :: t1 :: rest) = .ok r ∧ crack [t0] = .ok r ∧
      (r = { key1 := 0, key2 := 0 } ∨
        doubleEncrypt r.key1 r.key2 t0.plaintext = t0.ciphertext) := by
  obtain ⟨r, hr, hspec⟩ := crack_cons t0 (t1 :: rest)
  refine ⟨r, hr, by rw [← crack_cons_eq t0 (t1 :: rest)]; exact hr, ?_⟩
  rcases hspec with ⟨-, -, h, -⟩ | ⟨h, -⟩
  · exact Or.inr ((meets_iff _ _ _).1 h)
  · exact Or.inl h

set_option maxRecDepth 1000000 in
/-- C9 fails as stated: on the two-sample corpus whose first sample is the
zero block with its double encryption under `0x013456`, `0x7890AB` and whose
second sample pairs the zero block with itself, the pair `crack` returns
explains the first sample and not the second. -/
theorem C9_counterexample :
    ∃ r, crack [⟨zeroBlock, ⟨143, 139, 31, 217, 125, 73, 224, 92⟩⟩, ⟨zeroBlock, zeroBlock⟩]
        = .ok r ∧
      doubleEncrypt r.key1 r.key2 zeroBlock = ⟨143, 139, 31, 217, 125, 73, 224, 92⟩ ∧
      ∃ s ∈ [(⟨zeroBlock, ⟨143, 139, 31, 217, 125, 73, 224, 92⟩⟩ : textpair),
          ⟨zeroBlock, zeroBlock⟩],
        doubleEncrypt r.key1 r.key2 s.plaintext ≠ s.ciphertext := by
  obtain ⟨r, hr, hspec⟩ :=
    crack_cons ⟨zeroBlock, ⟨143, 139, 31, 217, 125, 73, 224, 92⟩⟩ [⟨zeroBlock, zeroBlock⟩]
  have hgen : Meets ⟨zeroBlock, ⟨143, 139, 31, 217, 125, 73, 224, 92⟩⟩ 0x013456 0x7890AB :=
    (meets_iff _ _ _).2 (by decide)
  rcases hspec with ⟨-, -, h, -⟩ | ⟨-, h⟩
  · have hde := (meets_iff _ _ _).1 h
    refine ⟨r, hr, hde, ⟨zeroBlock, zeroBlock⟩, by simp, ?_⟩
    show doubleEncrypt r.key1 r.key2 zeroBlock ≠ zeroBlock
    intro hz
    have hde2 : doubleEncrypt r.key1 r.key2 zeroBlock
        = ⟨143, 139, 31, 217, 125, 73, 224, 92⟩ := hde
    rw [hz] at hde2
    exact absurd hde2 (by decide)
  · exact absurd hgen (h _ _ (by decide) (by decide))

/-- C10, as the code has it: `crack` has no guard of its own, and on the
empty corpus it does not return but panics on its first index expression
`texts[0]`; the program rejects an input that parses to no sample with exit
status 1, without reaching that panic. -/
theorem C10_empty_corpus :
    crack [] = .error .indexOutOfRange ∧
      mainAfterParse [] = .exited 1 "need at least one plaintext/ciphertext pair\n" :=
  ⟨crack_nil, rfl⟩

/-- C10 fails as stated: applied to the empty corpus `crack` returns no
result at all, neither a failure value nor a key pair, because it indexes
into the corpus. -/
theorem C10_counterexample :
    (¬ ∃ r, crack [] = .ok r) ∧ crack [] = .error .indexOutOfRange := by
  refine ⟨?_, crack_nil⟩
  rintro ⟨r, hr⟩
  rw [crack_nil] at hr
  exact absurd hr (by simp)

/-- C11, where the code departs from it: a line whose plaintext field is not
eight bytes long makes `parse` leave with an error, but a line whose
plaintext field is eight bytes and whose ciphertext field is one byte only
has the message written: `parse` goes on and returns a corpus holding a
sample for that line, its ciphertext padded with zeros. -/
theorem C11_short_ciphertext_kept :
    parse ["00 0000000000000000"] false = .error .plaintextLength ∧
      parse ["0000000000000000 00"] false
        = .ok { pairs := [⟨zeroBlock, zeroBlock⟩], written := [.ciphertextLength] } :=
  ⟨rfl, rfl⟩

/-- C12: once the count and both key arguments have been decoded, the
generator leaves with status 1, before producing any line, when the first key
is not three bytes long, and likewise when the second is not; when both are
three bytes long it goes on to print the pairs for the keys they spell. -/
theorem C12_key_length (prog a1 a2 a3 : String) (rand : Nat → Nat) (n : Int)
    (k1bytes k2bytes : List (Fin 256)) (hn : atoi a1 = some n)
    (h1 : hexDecodeString a2 = some k1bytes) (h2 : hexDecodeString a3 = some k2bytes) :
    (k1bytes.length ≠ 3 →
        generatorMain [prog, a1, a2, a3] rand = .exited 1 .key1Length) ∧
      (k1bytes.length = 3 → k2bytes.length ≠ 3 →
        generatorMain [prog, a1, a2, a3] rand = .exited 1 .key2Length) ∧
      (k1bytes.length = 3 → k2bytes.length = 3 →
        generatorMain [prog, a1, a2, a3] rand
          = .printed (genLoop (keyOfBytes k1bytes) (keyOfBytes k2bytes) rand n.toNat 0)) := by
  refine ⟨fun hk1 => ?_, fun hk1 hk2 => ?_, fun hk1 hk2 => ?_⟩
  · simp [generatorMain, hn, h1, h2, hk1]
  · simp [generatorMain, hn, h1, h2, hk1, hk2]
  · simp [generatorMain, hn, h1, h2, hk1, hk2]

/-- C12 on a two-byte first key, and on the keys of the usage example. -/
theorem C12_key_length_witness :
    generatorMain ["generator", "1", "0134", "7890AB"] (fun _ => 0) = .exited 1 .key1Length ∧
      generatorMain ["generator", "1", "013456", "7890ABCD"] (fun _ => 0)
        = .exited 1 .key2Length ∧
      generatorMain ["generator", "1", "013456", "7890AB"] (fun _ => 0)
        = .printed (genLoop 0x013456 0x7890AB (fun _ => 0) 1 0) :=
  ⟨(C12_key_length "generator" "1" "0134" "7890AB" (fun _ => 0) 1 [1, 0x34]
      [0x78, 0x90, 0xAB] (by decide) (by decide) (by decide)).1 (by decide),
    (C12_key_length "generator" "1" "013456" "7890ABCD" (fun _ => 0) 1 [1, 0x34, 0x56]
      [0x78, 0x90, 0xAB, 0xCD] (by decide) (by decide) (by decide)).2.1 (by decide) (by decide),
    (C12_key_length "generator" "1" "013456" "7890AB" (fun _ => 0) 1 [1, 0x34, 0x56]
      [0x78, 0x90, 0xAB] (by decide) (by decide) (by decide)).2.2 (by decide) (by decide)⟩

/-- C13: the key encoding.  The generator reads three bytes as a big-endian
integer, always below `2 ^ 24`; `printAnswer` prints the hex digits of bytes
1..3 of the big-endian encoding of each key; for a key below `2 ^ 24` those
digits decode, and the decoded bytes read, back to the key; and for any key
they are the digits of its low 24 bits. -/
theorem C13_key_encoding :
    (∀ b0 b1 b2 : Fin 256,
        keyOfBytes [b0, b1, b2] = b0.val * 2 ^ 16 + b1.val * 2 ^ 8 + b2.val ∧
          keyOfBytes [b0, b1, b2] < 2 ^ 24) ∧
      (∀ keys : keypair,
        printAnswer keys
          = "\x7b\n    \"key_1\": \"" ++ hexEncodeToString (answerKeyBytes keys.key1) ++
            "\",\n    \"key_2\": \"" ++ hexEncodeToString (answerKeyBytes keys.key2) ++
            "\"\n\x7d\n") ∧
      (∀ k, k < 2 ^ 24 →
        hexDecodeString (hexEncodeToString (answerKeyBytes k)) = some (answerKeyBytes k) ∧
          keyOfBytes (answerKeyBytes k) = k) ∧
      (∀ k, answerKeyBytes k = answerKeyBytes (k &&& 0xFFFFFF)) := by
  refine ⟨fun b0 b1 b2 => ?_, fun keys => rfl, fun k hk => ?_, fun k => ?_⟩
  · rw [keyOfBytes_eq]
    have h0 := b0.isLt
    have h1 := b1.isLt
    have h2 := b2.isLt
    exact ⟨rfl, by omega⟩
  · exact ⟨hexDecode_hexEncode _, keyOfBytes_answerKeyBytes k hk⟩
  · exact (answerKeyBytes_mask k).symm

/-- C14: the tie-break of `crack`.  When some pair of keys below `2 ^ 24`
meets in the middle on the first sample `(m, c)`, the second key returned is
the smallest `k2` below `2 ^ 24` whose decryption of `c` is the encryption of
`m` under some key below `2 ^ 24`, and the first key returned is the largest
key below `2 ^ 24` whose encryption of `m` is that decryption. -/
theorem C14_tie_break (t0 : textpair) (rest : List textpair)
    (h : ∃ k k2, k < 2 ^ 24 ∧ k2 < 2 ^ 24 ∧
      encrypt k t0.plaintext = decrypt k2 t0.ciphertext) :
    ∃ r, crack (t0 :: rest) = .ok r ∧
      (r.key2 < 2 ^ 24 ∧
        (∃ k, k < 2 ^ 24 ∧ encrypt k t0.plaintext = decrypt r.key2 t0.ciphertext) ∧
        ∀ k2, k2 < 2 ^ 24 →
          (∃ k, k < 2 ^ 24 ∧ encrypt k t0.plaintext = decrypt k2 t0.ciphertext) →
          r.key2 ≤ k2) ∧
      (r.key1 < 2 ^ 24 ∧ encrypt r.key1 t0.plaintext = decrypt r.key2 t0.ciphertext ∧
        ∀ k, k < 2 ^ 24 → encrypt k t0.plaintext = decrypt r.key2 t0.ciphertext →
          k ≤ r.key1) := by
  obtain ⟨k, k2, hk, hk2, hmeet⟩ := h
  obtain ⟨r, hr, hspec⟩ := crack_cons t0 rest
  rcases hspec with ⟨a1, a2, a3, a4, a5⟩ | ⟨-, hno⟩
  · exact ⟨r, hr, ⟨a2, ⟨r.key1, a1, a3⟩, fun j2 hj2 ⟨j, hj, hm⟩ => a4 j j2 hj hj2 hm⟩,
      a1, a3, a5⟩
  · exact absurd hmeet (hno k k2 hk hk2)

set_option maxRecDepth 1000000 in
/-- C14 on the one-sample corpus of the usage example keys and the zero
plaintext. -/
theorem C14_tie_break_witness :
    ∃ r, crack [⟨zeroBlock, ⟨143, 139, 31, 217, 125, 73, 224, 92⟩⟩] = .ok r ∧
      (r.key2 < 2 ^ 24 ∧
        (∃ k, k < 2 ^ 24 ∧
          encrypt k zeroBlock = decrypt r.key2 ⟨143, 139, 31, 217, 125, 73, 224, 92⟩) ∧
        ∀ k2, k2 < 2 ^ 24 →
          (∃ k, k < 2 ^ 24 ∧
            encrypt k zeroBlock = decrypt k2 ⟨143, 139, 31, 217, 125, 73, 224, 92⟩) →
          r.key2 ≤ k2) ∧
      (r.key1 < 2 ^ 24 ∧
        encrypt r.key1 zeroBlock = decrypt r.key2 ⟨143, 139, 31, 217, 125, 73, 224, 92⟩ ∧
        ∀ k, k < 2 ^ 24 →
          encrypt k zeroBlock = decrypt r.key2 ⟨143, 139, 31, 217, 125, 73, 224, 92⟩ →
          k ≤ r.key1) :=
  C14_tie_break ⟨zeroBlock, ⟨143, 139, 31, 217, 125, 73, 224, 92⟩⟩ []
    ⟨0x013456, 0x7890AB, by decide, by decide, by decide⟩

/-- C15: completeness on the first sample `(m, c)`.  If any keys at all
double-encrypt `m` to `c`, the pair `crack` returns double-encrypts `m` to
`c`: overwritten table entries never make the search miss. -/
theorem C15_complete (t0 : textpair) (rest : List textpair)
    (h : ∃ k1 k2, doubleEncrypt k1 k2 t0.plaintext = t0.ciphertext) :
    ∃ r, crack (t0 :: rest) = .ok r ∧
      doubleEncrypt r.key1 r.key2 t0.plaintext = t0.ciphertext := by
  obtain ⟨k1, k2, hde⟩ := h
  have hmeet : Meets t0 (k1 &&& 0xFFFFFF) (k2 &&& 0xFFFFFF) :=
    (meets_mask _ _ _).2 ((meets_iff _ _ _).2 hde)
  obtain ⟨r, hr, hspec⟩ := crack_cons t0 rest
  rcases hspec with ⟨-, -, a3, -⟩ | ⟨-, hno⟩
  · exact ⟨r, hr, (meets_iff _ _ _).1 a3⟩
  · exact absurd hmeet (hno _ _ (mask_lt k1) (mask_lt k2))

set_option maxRecDepth 1000000 in
/-- C15 on the one-sample corpus of the usage example keys and the zero
plaintext. -/
theorem C15_complete_witness :
    ∃ r, crack [⟨zeroBlock, ⟨143, 139, 31, 217, 125, 73, 224, 92⟩⟩] = .ok r ∧
      doubleEncrypt r.key1 r.key2 zeroBlock = ⟨143, 139, 31, 217, 125, 73, 224, 92⟩ :=
  C15_complete ⟨zeroBlock, ⟨143, 139, 31, 217, 125, 73, 224, 92⟩⟩ []
    ⟨0x013456, 0x7890AB, by decide⟩

/-- C16: every table hit passes verification.  If the encryption of `m` under
`k` is the decryption of `c` under `k2`, then `k`, `k2` double-encrypt `m` to
`c`, so the call of `testDoubleEncryption` on a hit returns true and the
second loop of `crack`, finding `k` in the table at `k2`, returns `(k, k2)`
there. -/
theorem C16_hit_is_verified (k k2 : Nat) (m c : Block) (h : encrypt k m = decrypt k2 c) :
    doubleEncrypt k k2 m = c ∧ testDoubleEncryption k k2 m c = true ∧
      ∀ (table : GoMap) (rest : List textpair) (n : Nat),
        table.lookup (hexEncodeToString (decrypt k2 c).toList) = some k →
        backwardLoop (⟨m, c⟩ :: rest) table (n + 1) k2 = .ok { key1 := k, key2 := k2 } := by
  have hmeet : Meets ⟨m, c⟩ k k2 := h
  have htest := (testDoubleEncryption_iff k k2 ⟨m, c⟩).2 hmeet
  exact ⟨(meets_iff ⟨m, c⟩ k k2).1 hmeet, htest,
    fun table rest n hl => backwardLoop_hit ⟨m, c⟩ rest table n k2 k hl htest⟩

set_option maxRecDepth 1000000 in
/-- C16 at the keys of the usage example and the zero plaintext. -/
theorem C16_hit_is_verified_witness :
    encrypt 0x013456 zeroBlock = decrypt 0x7890AB ⟨143, 139, 31, 217, 125, 73, 224, 92⟩ ∧
      doubleEncrypt 0x013456 0x7890AB zeroBlock = ⟨143, 139, 31, 217, 125, 73, 224, 92⟩ ∧
      testDoubleEncryption 0x013456 0x7890AB zeroBlock
        ⟨143, 139, 31, 217, 125, 73, 224, 92⟩ = true := by
  have hmeet : encrypt 0x013456 zeroBlock
      = decrypt 0x7890AB ⟨143, 139, 31, 217, 125, 73, 224, 92⟩ := by decide
  have h := C16_hit_is_verified _ _ _ _ hmeet
  exact ⟨hmeet, h.1, h.2.1⟩

/-- C17: `crack` depends on the first sample only.  Two non-empty corpora with
the same first sample give the same result. -/
theorem C17_pivot_only (t0 : textpair) (rest rest2 : List textpair) :
    crack (t0 :: rest) = crack (t0 :: rest2) := by
  rw [crack_cons_eq t0 rest, crack_cons_eq t0 rest2]

/-- C18: on every non-empty corpus both keys `crack` returns are below
`2 ^ 24`, so the three bytes `printAnswer` keeps of each read back to the
key. -/
theorem C18_result_range (t0 : textpair) (rest : List textpair) :
    ∃ r, crack (t0 :: rest) = .ok r ∧ r.key1 < 2 ^ 24 ∧ r.key2 < 2 ^ 24 ∧
      keyOfBytes (answerKeyBytes r.key1) = r.key1 ∧
      keyOfBytes (answerKeyBytes r.key2) = r.key2 := by
  obtain ⟨r, hr, hspec⟩ := crack_cons t0 rest
  have hlt : r.key1 < 16777216 ∧ r.key2 < 16777216 := by
    rcases hspec with ⟨a1, a2, -⟩ | ⟨h0, -⟩
    · exact ⟨a1, a2⟩
    · rw [h0]
      exact ⟨by decide, by decide⟩
  exact ⟨r, hr, hlt.1, hlt.2, keyOfBytes_answerKeyBytes _ hlt.1,
    keyOfBytes_answerKeyBytes _ hlt.2⟩

/-- C19: the accumulators agree.  After its 64 rounds the accumulator of
`encrypt` is `(delta * 64) mod 2 ^ 32 = 0x8DDE6E40`, the value `decrypt`
starts from; the accumulator of `decrypt` is back at 0 after its 64 rounds;
and round `i` of `decrypt` starts with the accumulator that round `63 - i` of
`encrypt` ends with, and ends with the one that round starts with. -/
theorem C19_accumulators (key : List Nat) (m c : Block) :
    (encryptLoop key rounds (encryptInit m)).sum = (delta * 64) % 2 ^ 32 ∧
      (delta * 64) % 2 ^ 32 = 0x8DDE6E40 ∧
      (decryptInit c).sum = 0x8DDE6E40 ∧
      (decryptLoop key rounds (decryptInit c)).sum = 0 ∧
      ∀ i, i < 64 →
        (decryptLoop key i (decryptInit c)).sum
            = (encryptLoop key (63 - i + 1) (encryptInit m)).sum ∧
          (decryptLoop key (i + 1) (decryptInit c)).sum
            = (encryptLoop key (63 - i) (encryptInit m)).sum := by
  have he := (valid_encryptInit m).2.2
  have hd := (valid_decryptInit c).2.2
  refine ⟨?_, by decide, decryptInit_sum c, ?_, fun i hi => ⟨?_, ?_⟩⟩
  · rw [encryptLoop_sum _ _ _ he, encryptInit_sum]
    decide
  · rw [decryptLoop_sum _ _ _ hd, decryptInit_sum]
    decide
  · rw [encryptLoop_sum _ _ _ he, decryptLoop_sum _ _ _ hd, encryptInit_sum, decryptInit_sum]
    simp only [delta]
    omega
  · rw [encryptLoop_sum _ _ _ he, decryptLoop_sum _ _ _ hd, encryptInit_sum, decryptInit_sum]
    simp only [delta]
    omega

end KeyCrack
